import Mathlib

/-!
Verification development for the kalshi_bot research repository.

The definitions below are a shallow embedding of the Python code found in
the repository's research notebooks and configuration files:

* `src/strategy/research/post_trade/worst_performance.ipynb` — the
  profit-attribution notebook (the `ProfitData` record, the fills loop and
  the `final_profit` loop);
* the price-band cleaning cell of the modeling notebook (the pandas
  pipeline over `ts_recv` / `price` / `action` CSV rows);
* `load_env_vars_from_file` (shared by two notebooks);
* the Terraform configuration of the `features_raw` S3 bucket and its
  per-source IAM policies;
* the field accesses the notebooks perform on trade, fill and market
  records returned by the unseen `ExchangeInterface`.

Python dictionaries (with string keys, insertion ordered, unique keys) are
modelled as association lists; `os.environ` likewise.  Python's unbounded
`int` is modelled as `Int`.  Exceptions raised by exchange calls are
modelled with `Except Unit`.
-/

namespace KalshiBot

/-- Side of a fill (`helpers.types.orders.Side`), as consumed by the
notebooks: only `YES` and `NO` appear. -/
inductive Side
  | yes
  | no
deriving DecidableEq

/-- Trade action (`helpers.types.orders.TradeType`): `BUY` or `SELL`. -/
inductive TradeType
  | buy
  | sell
deriving DecidableEq

/-- Market result (`helpers.types.markets.MarketResult`) as consumed by
the notebook: the loop compares against `YES` and `NO` and treats any
other value as "not settled", so every other value collapses into the
`notDetermined` constructor. -/
inductive MarketResult
  | yes
  | no
  | notDetermined
deriving DecidableEq

/-- A fill record, with exactly the fields the notebooks read
(`fill.ticker`, `fill.created_time`, `fill.is_taker`, `fill.side`,
`fill.action`, `fill.yes_price`, `fill.no_price`, `fill.count`).
`created_time` is modelled as an integer timestamp; prices and counts as
unbounded integers (Python ints). -/
structure Fill where
  ticker : String
  created_time : Int
  is_taker : Bool
  side : Side
  action : TradeType
  yes_price : Int
  no_price : Int
  count : Int
deriving DecidableEq

/-- A market record, with the fields the notebook reads (`m.ticker`,
`m.result`). -/
structure Market where
  ticker : String
  result : MarketResult
deriving DecidableEq

/-- The `ProfitData` dataclass of the post-trade notebook: three integer
fields, each defaulting to `0`. -/
structure ProfitData where
  positions : Int := 0
  spent : Int := 0
  made : Int := 0
deriving DecidableEq

/-- Lookup in an association list keyed by strings (model of Python dict
access). -/
def assocLookup {β : Type} : List (String × β) → String → Option β
  | [], _ => none
  | (k, v) :: rest, t => if k = t then some v else assocLookup rest t

/-- Update an association list at a key: overwrite in place when the key
is present (keeping insertion order, as Python dicts do), append
otherwise. -/
def assocSet {β : Type} : List (String × β) → String → β → List (String × β)
  | [], t, d => [(t, d)]
  | (k, v) :: rest, t, d =>
    if k = t then (t, d) :: rest else (k, v) :: assocSet rest t d

/-- The state of the fills loop: the notebook's
`pd = defaultdict(lambda: ProfitData())`, from market ticker to
`ProfitData`. -/
abbrev PDMap : Type := List (String × ProfitData)

/-- Read a ticker's entry from the defaultdict: a missing key yields the
freshly constructed default `ProfitData()` (all fields `0`). -/
def pdGet (m : PDMap) (t : String) : ProfitData :=
  (assocLookup m t).getD {}

/-- The branch condition of the fills loop:
`(fill.side == Side.YES and fill.action == TradeType.BUY) or
(fill.side == Side.NO and fill.action == TradeType.SELL)`. -/
def yesBranch (f : Fill) : Prop :=
  (f.side = Side.yes ∧ f.action = TradeType.buy) ∨
    (f.side = Side.no ∧ f.action = TradeType.sell)

instance (f : Fill) : Decidable (yesBranch f) := by
  unfold yesBranch
  infer_instance

/-- One iteration of the fills loop of the post-trade notebook.  On the
yes-buy / no-sell branch the notebook adds `yes_price * count` to
`spent`, credits `min(count, abs(positions)) * 100` to `made` when the
running position is negative, then adds `count` to `positions`; the other
branch is symmetric with `no_price` and a positive running position, and
subtracts `count` from `positions`. -/
def fillUpdate (d : ProfitData) (f : Fill) : ProfitData :=
  if yesBranch f then
    { positions := d.positions + f.count
      spent := d.spent + f.yes_price * f.count
      made := d.made +
        (if d.positions < 0 then (min f.count |d.positions|) * 100 else 0) }
  else
    { positions := d.positions - f.count
      spent := d.spent + f.no_price * f.count
      made := d.made +
        (if d.positions > 0 then (min f.count |d.positions|) * 100 else 0) }

/-- One iteration of the fills loop: read the ticker entry (creating the
default), apply the updates of the taken branch, store the result. -/
def processFill (st : PDMap) (f : Fill) : PDMap :=
  assocSet st f.ticker (fillUpdate (pdGet st f.ticker) f)

/-- The whole fills loop, starting from the empty defaultdict. -/
def fillsLoop (fills : List Fill) : PDMap :=
  fills.foldl processFill []

/-- Insert a fill into a list sorted by `created_time` (stable: the new
element goes before later elements with an equal key). -/
def insertByTime (f : Fill) : List Fill → List Fill
  | [] => [f]
  | g :: gs =>
    if f.created_time ≤ g.created_time then f :: g :: gs
    else g :: insertByTime f gs

/-- `fi.sort(key=lambda x: x.created_time)`: a stable sort by
`created_time`. -/
def sortFills (fs : List Fill) : List Fill :=
  fs.foldr insertByTime []

/-- The exchange environment seen by the `final_profit` loop: each call
either returns a value or raises (modelled by `Except Unit`). -/
structure Env where
  getMarket : String → Except Unit Market
  getFills : String → Except Unit (List Fill)

/-- The check `len(fi) > 0 and fi[0].created_time < start` on the sorted
fills list. -/
def headEarly (start : Int) (fi : List Fill) : Bool :=
  match fi.head? with
  | some f => decide (f.created_time < start)
  | none => false

/-- The body of the `final_profit` loop for one `(ticker, data)` pair.
`none` models `continue` (no entry written): on an exception from
`get_market`/`get_fills`, on a fill before the start time, or on an
unsettled market.  Otherwise `some profit` is the entry written into
`final_profit`. -/
def processTicker (env : Env) (start : Int) (t : String) (d : ProfitData) :
    Option Int :=
  let profit := d.made - d.spent
  if d.positions ≠ 0 then
    match env.getMarket t with
    | Except.error _ => none
    | Except.ok m =>
      match env.getFills t with
      | Except.error _ => none
      | Except.ok fi0 =>
        let fi := sortFills fi0
        if headEarly start fi then none
        else
          match m.result with
          | MarketResult.no =>
            some (if d.positions < 0 then profit + |d.positions| * 100 else profit)
          | MarketResult.yes =>
            some (if d.positions > 0 then profit + |d.positions| * 100 else profit)
          | MarketResult.notDetermined => none
  else some profit

/-- The exchange calls the `final_profit` loop body performs for one
`(ticker, data)` pair: none when `positions == 0`; `get_market` alone
when it raises (the `try` block aborts before `get_fills`); both
otherwise. -/
inductive ExchangeCall
  | callGetMarket (ticker : String)
  | callGetFills (ticker : String)
deriving DecidableEq

/-- Trace of exchange calls made by the loop body. -/
def processTickerCalls (env : Env) (t : String) (d : ProfitData) :
    List ExchangeCall :=
  if d.positions ≠ 0 then
    match env.getMarket t with
    | Except.error _ => [ExchangeCall.callGetMarket t]
    | Except.ok _ => [ExchangeCall.callGetMarket t, ExchangeCall.callGetFills t]
  else []

/-- The `final_profit` loop over `pd.items()`: a dict built by inserting
`(ticker, profit)` for each non-skipped ticker.  Since the tickers of
`pd.items()` are unique, dict insertion is modelled as an ordered
association list built by `filterMap`. -/
def finalProfit (env : Env) (start : Int) (items : List (String × ProfitData)) :
    List (String × Int) :=
  items.filterMap fun td => (processTicker env start td.1 td.2).map fun p => (td.1, p)

/-! ### `load_env_vars_from_file` (credentials loading) -/

/-- Python's `s.split(sep)` for a single-character separator: split at
every occurrence, keeping empty pieces; the result is never empty.
Strings are modelled as lists of characters. -/
def splitOnChar (sep : Char) : List Char → List (List Char)
  | [] => [[]]
  | x :: xs =>
    match splitOnChar sep xs with
    | [] => [[x]]
    | y :: ys => if x = sep then [] :: y :: ys else (x :: y) :: ys

/-- Python's `s.startswith(pat)`. -/
def leadsWith : List Char → List Char → Bool
  | [], _ => true
  | _ :: _, [] => false
  | p :: ps, c :: cs => p = c && leadsWith ps cs

/-- Python's `s[1:-1]`: drop the first and the last character (empty
result on strings of length at most one). -/
def dropEnds (l : List Char) : List Char :=
  (l.drop 1).dropLast

/-- One line of `load_env_vars_from_file`.  For a line starting with
`"export"` the code runs
`var_to_value = line.split(" ")[1].split("=")`,
`var_ = var_to_value[0]`, `value_ = var_to_value[1][1:-1]`,
`os.environ[var_] = value_`.  `Except.error ()` models the `IndexError`
raised when the line has no second space-token or that token has no
`"="`; `Except.ok none` models a non-export line (no assignment);
`Except.ok (some (var, value))` models the assignment performed. -/
def parseExportLine (line : List Char) : Except Unit (Option (List Char × List Char)) :=
  if leadsWith ("export".toList) line then
    match (splitOnChar ' ' line)[1]? with
    | none => Except.error ()
    | some tok =>
      let parts := splitOnChar '=' tok
      match parts[1]? with
      | none => Except.error ()
      | some v => Except.ok (some (parts.headD [], dropEnds v))
  else Except.ok none

/-- The environment (`os.environ`), modelled as an association list of
character lists. -/
abbrev EnvMap : Type := List (List Char × List Char)

/-- Assignment `os.environ[k] = v`. -/
def envSet : EnvMap → List Char → List Char → EnvMap
  | [], k, v => [(k, v)]
  | (k0, v0) :: rest, k, v =>
    if k0 = k then (k, v) :: rest else (k0, v0) :: envSet rest k v

/-- `load_env_vars_from_file`, applied to the file's list of lines: each
export line performs its assignment; other lines are skipped; a raised
`IndexError` aborts the whole call. -/
def loadEnvVars (lines : List (List Char)) (env : EnvMap) : Except Unit EnvMap :=
  match lines with
  | [] => Except.ok env
  | l :: rest =>
    match parseExportLine l with
    | Except.error e => Except.error e
    | Except.ok none => loadEnvVars rest env
    | Except.ok (some kv) => loadEnvVars rest (envSet env kv.1 kv.2)

/-- The value the spec's sentence predicts for an export line: the text
right of the (first) `"="` of the line's second space-token, with its
first and last characters removed.  Written from the spec's words, for
comparison with `parseExportLine` (which keeps only the text before the
second `"="`). -/
def specExportValue (line : List Char) : List Char :=
  match (splitOnChar ' ' line)[1]? with
  | none => []
  | some tok =>
    dropEnds (List.intercalate ['='] ((splitOnChar '=' tok).drop 1))

/-! ### The price-band cleaning cell (CSV ingestion) -/

/-- One row of the market-data CSV dump: `ts_recv` (integer nanosecond
epoch), `price` (modelled as a rational), `action`. -/
structure CsvRow where
  ts_recv : Int
  price : Rat
  action : String
deriving DecidableEq

/-- A pandas `Timestamp` produced by `pd.to_datetime(x, unit="ns")`: the
underlying value is the same count of nanoseconds since the epoch. -/
structure PdTimestamp where
  ns : Int
deriving DecidableEq

/-- `pd.to_datetime(x, unit="ns")`. -/
def toDatetimeNs (x : Int) : PdTimestamp := ⟨x⟩

/-- A row of the cleaned frame after the projection to
`["ts_recv", "price"]` and the datetime conversion. -/
structure CleanRow where
  ts_recv : PdTimestamp
  price : Rat
deriving DecidableEq

/-- The cleaning pipeline of the price-band cell, parametrised by the
computed market-open/close nanosecond bounds and the `0.99` / `0.01`
price quantiles:
`df1 = df[(open_ns <= ts_recv) & (ts_recv <= close_ns)]`,
`df2 = df1[action == "T"]`, `df3 = df2[["ts_recv","price"]]` with
`ts_recv` converted via `pd.to_datetime(..., unit="ns")`, and
`df4 = df3[(price < high) & (price > low)]`. -/
def cleanedFrame (df : List CsvRow) (openNs closeNs : Int) (high low : Rat) :
    List CleanRow :=
  let df1 := df.filter fun r => decide (openNs ≤ r.ts_recv ∧ r.ts_recv ≤ closeNs)
  let df2 := df1.filter fun r => r.action == "T"
  let df3 := df2.map fun r => CleanRow.mk (toDatetimeNs r.ts_recv) r.price
  df3.filter fun r => decide (r.price < high ∧ low < r.price)

/-! ### Terraform: the `features_raw` per-source IAM policies -/

/-- A statement of an IAM policy document, as written in the Terraform
`jsonencode` block. -/
structure IamStatement where
  actions : List String
  effect : String
  resource : String
deriving DecidableEq

/-- An IAM policy resource: its `name` and the statements of its policy
document. -/
structure IamPolicy where
  name : String
  statements : List IamStatement
deriving DecidableEq

/-- The source set of the `for_each`:
`toset(["cole", "test", "databento"])`. -/
def featuresRawSources : List String := ["cole", "test", "databento"]

/-- The four actions granted by every `features_raw` policy. -/
def featuresRawActions : List String :=
  ["s3:PutObject", "s3:GetObject", "s3:ListBucket", "s3:DeleteObject"]

/-- One instance of `aws_iam_policy.features_raw_source_rw`
(with `local.env = "prod"`), parametrised by the bucket ARN the Terraform
interpolation `${aws_s3_bucket.features_raw.arn}` resolves to. -/
def features_raw_source_rw (bucketArn : String) (source : String) : IamPolicy :=
  { name := "features_raw_prod_" ++ source ++ "_rw"
    statements :=
      [{ actions := featuresRawActions
         effect := "Allow"
         resource := bucketArn ++ "/" ++ source ++ "/*" }] }

/-- All per-source policies created by the `for_each`. -/
def features_raw_source_rw_policies (bucketArn : String) : List IamPolicy :=
  featuresRawSources.map (features_raw_source_rw bucketArn)

/-! ### Exchange client surface consumed by the notebooks -/

/-- A trade record as consumed by the large-trades plotter, which reads
exactly `t.created_time`, `t.yes_price`, `t.count` and `t.taker_side`. -/
structure Trade where
  created_time : Int
  yes_price : Int
  count : Int
  taker_side : Side
deriving DecidableEq

/-- The exchange-client methods the notebooks call. -/
def exchangeClientSurface : List String :=
  ["get_trades", "get_fills", "get_market"]

/-- The attribute names the notebooks read on trade records
(`analyze_non_daily_large_move_tickers.ipynb`, `plotter`). -/
def tradeConsumedFields : List String :=
  ["created_time", "yes_price", "count", "taker_side"]

/-- The attribute names the notebooks read on fill records
(`worst_performance.ipynb`). -/
def fillConsumedFields : List String :=
  ["ticker", "created_time", "is_taker", "side", "action",
   "yes_price", "no_price", "count"]

/-- The attribute names the notebook reads on market records. -/
def marketConsumedFields : List String :=
  ["ticker", "result"]

/-! ### Helper lemmas: association lists -/

theorem assocLookup_assocSet {β : Type} (m : List (String × β)) (t u : String) (d : β) :
    assocLookup (assocSet m t d) u = if t = u then some d else assocLookup m u := by
  induction m with
  | nil =>
    simp only [assocSet, assocLookup]
  | cons kv rest ih =>
    obtain ⟨k, v⟩ := kv
    simp only [assocSet]
    by_cases hk : k = t
    · subst hk
      simp only [if_pos rfl, assocLookup]
      by_cases hu : k = u
      · subst hu
        simp
      · simp [hu]
    · rw [if_neg hk]
      simp only [assocLookup, ih]
      by_cases hu : k = u
      · subst hu
        have ht : ¬ t = k := fun h => hk h.symm
        simp [ht]
      · simp [hu]

theorem pdGet_assocSet (m : PDMap) (t u : String) (d : ProfitData) :
    pdGet (assocSet m t d) u = if t = u then d else pdGet m u := by
  unfold pdGet
  rw [assocLookup_assocSet]
  split_ifs <;> rfl

theorem pdGet_processFill (st : PDMap) (f : Fill) (u : String) :
    pdGet (processFill st f) u
      = if f.ticker = u then fillUpdate (pdGet st f.ticker) f else pdGet st u := by
  unfold processFill
  rw [pdGet_assocSet]

/-! ### Helper lemmas: the per-fill update -/

theorem fillUpdate_spent (d : ProfitData) (f : Fill) :
    (fillUpdate d f).spent
      = d.spent + (if yesBranch f then f.yes_price else f.no_price) * f.count := by
  unfold fillUpdate
  split_ifs <;> rfl

theorem fillUpdate_made (d : ProfitData) (f : Fill) :
    (fillUpdate d f).made
      = d.made
        + (if (yesBranch f ∧ d.positions < 0) ∨ (¬ yesBranch f ∧ 0 < d.positions)
           then (min f.count |d.positions|) * 100 else 0) := by
  unfold fillUpdate
  by_cases hb : yesBranch f
  · by_cases hp : d.positions < 0
    · simp [hb, hp]
    · simp [hb, hp]
  · by_cases hp : 0 < d.positions
    · simp only [if_neg hb]
      rw [if_pos hp, if_pos (Or.inr ⟨hb, hp⟩)]
    · have hcond : ¬ ((yesBranch f ∧ d.positions < 0) ∨ (¬ yesBranch f ∧ 0 < d.positions)) := by
        rintro (⟨h1, _⟩ | ⟨_, h2⟩)
        · exact hb h1
        · exact hp h2
      simp only [if_neg hb, if_neg hp, if_neg hcond]

theorem fillUpdate_spent_mono (d : ProfitData) (f : Fill)
    (hy : 0 ≤ f.yes_price) (hn : 0 ≤ f.no_price) (hc : 0 ≤ f.count) :
    d.spent ≤ (fillUpdate d f).spent := by
  rw [fillUpdate_spent]
  have hpc : (0 : Int) ≤ (if yesBranch f then f.yes_price else f.no_price) * f.count := by
    apply mul_nonneg _ hc
    split_ifs <;> assumption
  linarith

theorem fillUpdate_made_mono (d : ProfitData) (f : Fill) (hc : 0 ≤ f.count) :
    d.made ≤ (fillUpdate d f).made := by
  rw [fillUpdate_made]
  have h0 : (0 : Int) ≤ (min f.count |d.positions|) * 100 :=
    mul_nonneg (le_min hc (abs_nonneg _)) (by norm_num)
  split_ifs <;> linarith

theorem foldl_processFill_nonneg (fills : List Fill) :
    ∀ (st : PDMap),
      (∀ f ∈ fills, 0 ≤ f.yes_price ∧ 0 ≤ f.no_price ∧ 0 ≤ f.count) →
      (∀ t, 0 ≤ (pdGet st t).spent ∧ 0 ≤ (pdGet st t).made) →
      ∀ t, 0 ≤ (pdGet (fills.foldl processFill st) t).spent
        ∧ 0 ≤ (pdGet (fills.foldl processFill st) t).made := by
  induction fills with
  | nil =>
    intro st _ hst
    simpa using hst
  | cons f rest ih =>
    intro st hf hst
    simp only [List.foldl_cons]
    apply ih
    · intro g hg
      exact hf g (List.mem_cons_of_mem _ hg)
    · intro t
      rw [pdGet_processFill]
      obtain ⟨hy, hn, hc⟩ := hf f (List.mem_cons_self _ _)
      split_ifs with h
      · exact ⟨le_trans (hst f.ticker).1 (fillUpdate_spent_mono _ _ hy hn hc),
          le_trans (hst f.ticker).2 (fillUpdate_made_mono _ _ hc)⟩
      · exact hst t

theorem pdGet_nil (t : String) : pdGet [] t = ProfitData.mk 0 0 0 := rfl

/-! ### Helper lemmas: sorting by `created_time` -/

theorem mem_insertByTime (f a : Fill) (l : List Fill) :
    a ∈ insertByTime f l ↔ a = f ∨ a ∈ l := by
  induction l with
  | nil => simp [insertByTime]
  | cons g gs ih =>
    unfold insertByTime
    split_ifs with h
    · simp [List.mem_cons]
    · simp only [List.mem_cons, ih]
      tauto

theorem mem_sortFills (a : Fill) (l : List Fill) : a ∈ sortFills l ↔ a ∈ l := by
  induction l with
  | nil => simp [sortFills]
  | cons g gs ih =>
    unfold sortFills at ih ⊢
    simp only [List.foldr_cons, mem_insertByTime, ih, List.mem_cons]

theorem pairwise_insertByTime (f : Fill) (l : List Fill)
    (hl : l.Pairwise fun a b => a.created_time ≤ b.created_time) :
    (insertByTime f l).Pairwise fun a b => a.created_time ≤ b.created_time := by
  induction l with
  | nil => simp [insertByTime]
  | cons g gs ih =>
    rw [List.pairwise_cons] at hl
    obtain ⟨hg, hgs⟩ := hl
    unfold insertByTime
    split_ifs with h
    · rw [List.pairwise_cons]
      constructor
      · intro b hb
        rcases List.mem_cons.mp hb with rfl | hb
        · exact h
        · exact le_trans h (hg b hb)
      · rw [List.pairwise_cons]
        exact ⟨hg, hgs⟩
    · rw [List.pairwise_cons]
      refine ⟨?_, ih hgs⟩
      intro b hb
      rcases (mem_insertByTime f b gs).mp hb with rfl | hb
      · omega
      · exact hg b hb

theorem pairwise_sortFills (l : List Fill) :
    (sortFills l).Pairwise fun a b => a.created_time ≤ b.created_time := by
  induction l with
  | nil => simp [sortFills]
  | cons g gs ih =>
    unfold sortFills at ih ⊢
    simp only [List.foldr_cons]
    exact pairwise_insertByTime g _ ih

theorem headEarly_sortFills (start : Int) (l : List Fill) :
    headEarly start (sortFills l) = true
      ↔ ∃ f, f ∈ l ∧ f.created_time < start := by
  constructor
  · intro h
    unfold headEarly at h
    cases hh : (sortFills l).head? with
    | none => rw [hh] at h; simp at h
    | some f0 =>
      rw [hh] at h
      simp only [decide_eq_true_eq] at h
      have hmem : f0 ∈ sortFills l := by
        cases hs : sortFills l with
        | nil => rw [hs] at hh; simp at hh
        | cons a rest =>
          rw [hs] at hh
          simp only [List.head?_cons, Option.some.injEq] at hh
          rw [hh]
          exact List.mem_cons_self _ _
      exact ⟨f0, (mem_sortFills f0 l).mp hmem, h⟩
  · rintro ⟨f, hf, hlt⟩
    have hf' : f ∈ sortFills l := (mem_sortFills f l).mpr hf
    cases hs : sortFills l with
    | nil => rw [hs] at hf'; simp at hf'
    | cons f0 rest =>
      have hp := pairwise_sortFills l
      rw [hs, List.pairwise_cons] at hp
      have hle : f0.created_time ≤ f.created_time := by
        rw [hs] at hf'
        rcases List.mem_cons.mp hf' with rfl | hmem
        · exact le_refl _
        · exact hp.1 f hmem
      unfold headEarly
      simp only [List.head?_cons, decide_eq_true_eq]
      omega

/-! ### Helper lemmas: the final-profit loop -/

theorem finalProfit_append (env : Env) (start : Int)
    (l1 l2 : List (String × ProfitData)) :
    finalProfit env start (l1 ++ l2)
      = finalProfit env start l1 ++ finalProfit env start l2 := by
  unfold finalProfit
  exact List.filterMap_append _ _ _

theorem processTicker_zero (env : Env) (start : Int) (t : String) (d : ProfitData)
    (hz : d.positions = 0) :
    processTicker env start t d = some (d.made - d.spent) := by
  unfold processTicker
  rw [if_neg (by simp [hz])]

theorem processTicker_pos (env : Env) (start : Int) (t : String) (d : ProfitData)
    (hpos : d.positions ≠ 0) :
    processTicker env start t d
      = match env.getMarket t with
        | Except.error _ => none
        | Except.ok m =>
          match env.getFills t with
          | Except.error _ => none
          | Except.ok fi0 =>
            if headEarly start (sortFills fi0) then none
            else
              match m.result with
              | MarketResult.no =>
                some (if d.positions < 0
                      then d.made - d.spent + |d.positions| * 100
                      else d.made - d.spent)
              | MarketResult.yes =>
                some (if d.positions > 0
                      then d.made - d.spent + |d.positions| * 100
                      else d.made - d.spent)
              | MarketResult.notDetermined => none := by
  unfold processTicker
  rw [if_pos hpos]

/-! ### Helper lemmas: Python string splitting -/

theorem splitOnChar_ne_nil (sep : Char) (l : List Char) : splitOnChar sep l ≠ [] := by
  induction l with
  | nil => simp [splitOnChar]
  | cons x xs ih =>
    unfold splitOnChar
    cases h : splitOnChar sep xs with
    | nil => exact absurd h ih
    | cons y ys => split_ifs <;> simp

theorem splitOnChar_no_sep (sep : Char) :
    ∀ (l : List Char), (∀ c ∈ l, c ≠ sep) → splitOnChar sep l = [l] := by
  intro l
  induction l with
  | nil => intro _; rfl
  | cons x xs ih =>
    intro h
    have hx : x ≠ sep := h x (List.mem_cons_self _ _)
    have hxs : splitOnChar sep xs = [xs] :=
      ih fun c hc => h c (List.mem_cons_of_mem _ hc)
    unfold splitOnChar
    rw [hxs]
    simp [hx]

theorem splitOnChar_cons (sep x : Char) (xs : List Char) :
    splitOnChar sep (x :: xs)
      = match splitOnChar sep xs with
        | [] => [[x]]
        | y :: ys => if x = sep then [] :: y :: ys else (x :: y) :: ys := rfl

theorem splitOnChar_append_sep (sep : Char) :
    ∀ (a b : List Char), (∀ c ∈ a, c ≠ sep) →
      splitOnChar sep (a ++ sep :: b) = a :: splitOnChar sep b := by
  intro a
  induction a with
  | nil =>
    intro b _
    simp only [List.nil_append]
    rw [splitOnChar_cons]
    cases h : splitOnChar sep b with
    | nil => exact absurd h (splitOnChar_ne_nil sep b)
    | cons y ys => simp
  | cons x xs ih =>
    intro b h
    have hx : x ≠ sep := h x (List.mem_cons_self _ _)
    have hxs := ih b fun c hc => h c (List.mem_cons_of_mem _ hc)
    simp only [List.cons_append]
    rw [splitOnChar_cons, hxs]
    simp [hx]

theorem splitOnChar_head (sep : Char) (l : List Char) :
    (splitOnChar sep l).head? = some (l.takeWhile fun c => c != sep) := by
  induction l with
  | nil => rfl
  | cons x xs ih =>
    unfold splitOnChar
    cases h : splitOnChar sep xs with
    | nil => exact absurd h (splitOnChar_ne_nil sep xs)
    | cons y ys =>
      rw [h] at ih
      simp only [List.head?_cons, Option.some.injEq] at ih
      by_cases hx : x = sep
      · subst hx
        simp [List.takeWhile_cons]
      · simp [hx, List.takeWhile_cons, ih]

theorem leadsWith_append (p l : List Char) : leadsWith p (p ++ l) = true := by
  induction p with
  | nil => rfl
  | cons c cs ih => simp [leadsWith, ih]

theorem parseExportLine_wf (name value : List Char)
    (hn : ∀ c ∈ name, c ≠ ' ' ∧ c ≠ '=') (hv : ∀ c ∈ value, c ≠ ' ') :
    parseExportLine ("export ".toList ++ (name ++ '=' :: value))
      = Except.ok (some (name, dropEnds (value.takeWhile fun c => c != '='))) := by
  have h0 : "export ".toList = "export".toList ++ [' '] := by decide
  have hline : "export ".toList ++ (name ++ '=' :: value)
      = "export".toList ++ (' ' :: (name ++ '=' :: value)) := by
    rw [h0, List.append_assoc]
    rfl
  have htail : splitOnChar ' ' (name ++ '=' :: value) = [name ++ '=' :: value] := by
    apply splitOnChar_no_sep
    intro c hc
    rcases List.mem_append.mp hc with hc1 | hc2
    · exact (hn c hc1).1
    · rcases List.mem_cons.mp hc2 with rfl | hc3
      · decide
      · exact hv c hc3
  have htok : splitOnChar ' ' ("export".toList ++ (' ' :: (name ++ '=' :: value)))
      = "export".toList :: [name ++ '=' :: value] := by
    rw [splitOnChar_append_sep ' ' ("export".toList) _ (by decide), htail]
  have hparts : splitOnChar '=' (name ++ '=' :: value)
      = name :: splitOnChar '=' value :=
    splitOnChar_append_sep '=' name value fun c hc => (hn c hc).2
  obtain ⟨y, ys, hX⟩ : ∃ y ys, splitOnChar '=' value = y :: ys := by
    cases hX : splitOnChar '=' value with
    | nil => exact absurd hX (splitOnChar_ne_nil '=' value)
    | cons y ys => exact ⟨y, ys, rfl⟩
  have hy : y = value.takeWhile fun c => c != '=' := by
    have hh := splitOnChar_head '=' value
    rw [hX] at hh
    simp only [List.head?_cons, Option.some.injEq] at hh
    exact hh
  rw [hline]
  unfold parseExportLine
  simp only [leadsWith_append, if_true, htok, hparts, hX,
    List.getElem?_cons_succ, List.getElem?_cons_zero, List.headD_cons]
  rw [hy]

/-! ### Claim theorems -/

/-- Claim C1: in the final-profit loop, for a ticker with nonzero net
positions, if `e.get_market(ticker)` or
`e.get_fills(GetFillsRequest(ticker=ticker))` raises, the exception is
caught, the ticker gets no entry in `final_profit`, and the loop
continues over the remaining tickers, leaving earlier entries
unchanged. -/
theorem c1_exception_skips_ticker (env : Env) (start : Int)
    (pre post : List (String × ProfitData)) (t : String) (d : ProfitData)
    (hpos : d.positions ≠ 0)
    (hraise : env.getMarket t = Except.error () ∨ env.getFills t = Except.error ()) :
    finalProfit env start (pre ++ (t, d) :: post)
      = finalProfit env start pre ++ finalProfit env start post := by
  have hnone : processTicker env start t d = none := by
    rw [processTicker_pos env start t d hpos]
    rcases hraise with hm | hf
    · rw [hm]
    · cases hm2 : env.getMarket t with
      | error e => rfl
      | ok m => rw [hf]
  rw [finalProfit_append]
  congr 1
  unfold finalProfit
  rw [List.filterMap_cons]
  simp [hnone]

/-- Witness for C1 at a concrete input: the erroring environment makes
the lone nonzero-position ticker vanish from `final_profit`. -/
theorem c1_exception_skips_ticker_witness :
    (ProfitData.mk 1 0 0).positions ≠ 0
    ∧ finalProfit (Env.mk (fun _ => Except.error ()) (fun _ => Except.error ())) 0
        ([] ++ (("A"), ProfitData.mk 1 0 0) :: [])
      = finalProfit (Env.mk (fun _ => Except.error ()) (fun _ => Except.error ())) 0 []
        ++ finalProfit (Env.mk (fun _ => Except.error ()) (fun _ => Except.error ())) 0 [] :=
  ⟨by decide,
    c1_exception_skips_ticker _ 0 [] [] ("A") _ (by decide) (Or.inl rfl)⟩

/-- Claim C2: for a ticker whose accumulated net positions is exactly
zero, the entry recorded in `final_profit` is `made - spent`, and no
exchange call is made for that ticker in the loop. -/
theorem c2_zero_position_profit (env : Env) (start : Int)
    (pre post : List (String × ProfitData)) (t : String) (d : ProfitData)
    (hz : d.positions = 0) :
    finalProfit env start (pre ++ (t, d) :: post)
      = finalProfit env start pre
        ++ (t, d.made - d.spent) :: finalProfit env start post
    ∧ processTickerCalls env t d = [] := by
  have hsome : processTicker env start t d = some (d.made - d.spent) :=
    processTicker_zero env start t d hz
  constructor
  · rw [finalProfit_append]
    congr 1
    unfold finalProfit
    rw [List.filterMap_cons]
    simp [hsome]
  · unfold processTickerCalls
    rw [if_neg (by simp [hz])]

/-- Witness for C2 at a concrete input. -/
theorem c2_zero_position_profit_witness :
    (ProfitData.mk 0 5 7).positions = 0
    ∧ (finalProfit (Env.mk (fun _ => Except.error ()) (fun _ => Except.error ())) 0
          ([] ++ (("A"), ProfitData.mk 0 5 7) :: [])
        = finalProfit (Env.mk (fun _ => Except.error ()) (fun _ => Except.error ())) 0 []
          ++ (("A"), (ProfitData.mk 0 5 7).made - (ProfitData.mk 0 5 7).spent)
            :: finalProfit (Env.mk (fun _ => Except.error ()) (fun _ => Except.error ())) 0 []
       ∧ processTickerCalls (Env.mk (fun _ => Except.error ()) (fun _ => Except.error ()))
            ("A") (ProfitData.mk 0 5 7) = []) :=
  ⟨rfl,
    c2_zero_position_profit _ 0 [] [] ("A") _ rfl⟩

/-- Claim C3: `ProfitData` has exactly the three integer fields
`positions`, `spent` and `made` (every value is determined by those
three projections), and in the fills loop a ticker seen for the first
time (absent from the accumulated state) reads the default record with
all three fields `0`. -/
theorem c3_profit_data_defaults :
    (∀ p : ProfitData, p = ProfitData.mk p.positions p.spent p.made)
    ∧ ∀ (fills pre : List Fill) (f : Fill) (post : List Fill),
        fills = pre ++ f :: post →
        assocLookup (fillsLoop pre) f.ticker = none →
        pdGet (fillsLoop pre) f.ticker = ProfitData.mk 0 0 0 := by
  constructor
  · intro p
    rfl
  · intro fills pre f post _ hnone
    unfold pdGet
    rw [hnone]
    rfl

/-- Witness for C3 at a concrete input: the very first fill of the loop
reads the all-zero default for its ticker. -/
theorem c3_profit_data_defaults_witness :
    ([Fill.mk ("A") 0 false Side.yes TradeType.buy 3 4 2]
        = [] ++ Fill.mk ("A") 0 false Side.yes TradeType.buy 3 4 2 :: [])
    ∧ assocLookup (fillsLoop []) (Fill.mk ("A") 0 false Side.yes TradeType.buy 3 4 2).ticker
        = none
    ∧ pdGet (fillsLoop []) (Fill.mk ("A") 0 false Side.yes TradeType.buy 3 4 2).ticker
        = ProfitData.mk 0 0 0 :=
  ⟨rfl, rfl,
    c3_profit_data_defaults.2 _ [] (Fill.mk ("A") 0 false Side.yes TradeType.buy 3 4 2) []
      rfl rfl⟩

/-- Claim C7: the Terraform configuration creates a per-source
read/write IAM policy for exactly the sources `cole`, `test` and
`databento`, and each such policy grants `s3:PutObject`, `s3:GetObject`,
`s3:ListBucket` and `s3:DeleteObject` only on the resource
`<bucket-arn>/<source>/*` of the `features_raw` bucket. -/
theorem c7_features_raw_policies (bucketArn : String) (p : IamPolicy) :
    featuresRawSources = ["cole", "test", "databento"]
    ∧ featuresRawActions
        = ["s3:PutObject", "s3:GetObject", "s3:ListBucket", "s3:DeleteObject"]
    ∧ (p ∈ features_raw_source_rw_policies bucketArn
        ↔ ∃ s, s ∈ featuresRawSources
            ∧ p = IamPolicy.mk ("features_raw_prod_" ++ s ++ "_rw")
                [IamStatement.mk featuresRawActions ("Allow")
                  (bucketArn ++ "/" ++ s ++ "/*")]) := by
  refine ⟨rfl, rfl, ?_⟩
  unfold features_raw_source_rw_policies features_raw_source_rw
  simp only [List.mem_map]
  constructor
  · rintro ⟨s, hs, rfl⟩
    exact ⟨s, hs, rfl⟩
  · rintro ⟨s, hs, rfl⟩
    exact ⟨s, hs, rfl⟩

/-- Claim C4: the CSV ingestion converts `ts_recv` with `unit="ns"`
(every retained row's timestamp is the nanosecond interpretation of the
original integer), and the cleaned frame retains only rows whose
`action` equals `"T"` and whose `ts_recv` lies between market open and
market close; the bounds are inclusive at both ends (rows exactly at
either bound are retained, given they pass the price-quantile filter). -/
theorem c4_cleaned_frame_rows (df : List CsvRow) (openNs closeNs : Int)
    (high low : Rat) :
    (∀ r ∈ cleanedFrame df openNs closeNs high low,
        ∃ row, row ∈ df ∧ row.action = "T"
          ∧ openNs ≤ row.ts_recv ∧ row.ts_recv ≤ closeNs
          ∧ r = CleanRow.mk (toDatetimeNs row.ts_recv) row.price)
    ∧ ∀ row ∈ df, row.action = "T" →
        (row.ts_recv = openNs ∨ row.ts_recv = closeNs) → openNs ≤ closeNs →
        low < row.price → row.price < high →
        CleanRow.mk (toDatetimeNs row.ts_recv) row.price
          ∈ cleanedFrame df openNs closeNs high low := by
  constructor
  · intro r hr
    unfold cleanedFrame at hr
    simp only [List.mem_filter, List.mem_map, decide_eq_true_eq,
      beq_iff_eq] at hr
    obtain ⟨⟨row, ⟨⟨hdf, hts⟩, hact⟩, hmap⟩, _⟩ := hr
    exact ⟨row, hdf, hact, hts.1, hts.2, hmap.symm⟩
  · intro row hrow hact hbound hoc hlo hhi
    unfold cleanedFrame
    simp only [List.mem_filter, List.mem_map, decide_eq_true_eq, beq_iff_eq]
    refine ⟨⟨row, ⟨⟨hrow, ?_⟩, hact⟩, rfl⟩, hhi, hlo⟩
    rcases hbound with rfl | rfl
    · exact ⟨le_refl _, hoc⟩
    · exact ⟨hoc, le_refl _⟩

/-- Witness for C4 at a concrete input: a trade row exactly at the
market-open bound (equal to the close bound) is retained. -/
theorem c4_cleaned_frame_rows_witness :
    CleanRow.mk (toDatetimeNs (CsvRow.mk 5 1 ("T")).ts_recv)
        (CsvRow.mk 5 1 ("T")).price
      ∈ cleanedFrame [CsvRow.mk 5 1 ("T")] 5 5 2 0 :=
  (c4_cleaned_frame_rows [CsvRow.mk 5 1 ("T")] 5 5 2 0).2
    (CsvRow.mk 5 1 ("T")) (List.mem_singleton.mpr rfl) rfl (Or.inl rfl)
    (by norm_num) (by norm_num) (by norm_num)

/-- Counterexample for claim C5: the trade records consumed by the
plotter do not expose a `side` attribute — the plotter reads
`t.taker_side`, so `"side"` is not among the trade fields the notebooks
consume. -/
theorem c5_trade_side_counterexample :
    ¬ (("side") ∈ tradeConsumedFields) := by decide

/-- Claim C5 (amended): the exchange client surface used by the
notebooks is `get_trades(ticker)`, `get_fills(request)` and
`get_market(ticker)`; the fill, trade and market records those calls
return carry (between them) the fields `created_time`, `yes_price`,
`no_price`, `count`, `side`, `action` and `result`; and the trade
records consumed expose a `taker_side` field, while `side` is a field of
the fill records. -/
theorem c5_surface_fields_amended :
    exchangeClientSurface = ["get_trades", "get_fills", "get_market"]
    ∧ ("taker_side") ∈ tradeConsumedFields
    ∧ ("side") ∈ fillConsumedFields
    ∧ ("created_time") ∈ tradeConsumedFields ++ fillConsumedFields ++ marketConsumedFields
    ∧ ("yes_price") ∈ tradeConsumedFields ++ fillConsumedFields ++ marketConsumedFields
    ∧ ("no_price") ∈ tradeConsumedFields ++ fillConsumedFields ++ marketConsumedFields
    ∧ ("count") ∈ tradeConsumedFields ++ fillConsumedFields ++ marketConsumedFields
    ∧ ("side") ∈ tradeConsumedFields ++ fillConsumedFields ++ marketConsumedFields
    ∧ ("action") ∈ tradeConsumedFields ++ fillConsumedFields ++ marketConsumedFields
    ∧ ("result") ∈ tradeConsumedFields ++ fillConsumedFields ++ marketConsumedFields := by
  decide

/-- Claim C8: assuming every fill has non-negative `yes_price`,
`no_price` and `count`, then after processing any prefix of the fills
list every ticker's accumulated `spent` and `made` are non-negative;
processing one more fill never decreases either; the fill's ticker gains
exactly `price * count` on `spent` (with the price of the traded side);
and `made` grows only when the fill offsets an opposite-sign position,
by exactly `min(count, abs(positions)) * 100`. -/
theorem c8_fills_loop_invariant (fills : List Fill)
    (hnn : ∀ f ∈ fills, 0 ≤ f.yes_price ∧ 0 ≤ f.no_price ∧ 0 ≤ f.count) :
    (∀ pre post, fills = pre ++ post → ∀ t,
        0 ≤ (pdGet (fillsLoop pre) t).spent ∧ 0 ≤ (pdGet (fillsLoop pre) t).made)
    ∧ ∀ pre f post, fills = pre ++ f :: post →
        (∀ t, (pdGet (fillsLoop pre) t).spent ≤ (pdGet (fillsLoop (pre ++ [f])) t).spent
            ∧ (pdGet (fillsLoop pre) t).made ≤ (pdGet (fillsLoop (pre ++ [f])) t).made)
        ∧ (pdGet (fillsLoop (pre ++ [f])) f.ticker).spent
            = (pdGet (fillsLoop pre) f.ticker).spent
              + (if yesBranch f then f.yes_price else f.no_price) * f.count
        ∧ (pdGet (fillsLoop (pre ++ [f])) f.ticker).made
            = (pdGet (fillsLoop pre) f.ticker).made
              + (if (yesBranch f ∧ (pdGet (fillsLoop pre) f.ticker).positions < 0)
                    ∨ (¬ yesBranch f ∧ 0 < (pdGet (fillsLoop pre) f.ticker).positions)
                 then (min f.count |(pdGet (fillsLoop pre) f.ticker).positions|) * 100
                 else 0) := by
  constructor
  · intro pre post hsplit t
    have hpre : ∀ f ∈ pre, 0 ≤ f.yes_price ∧ 0 ≤ f.no_price ∧ 0 ≤ f.count :=
      fun f hf => hnn f (hsplit ▸ List.mem_append_left _ hf)
    unfold fillsLoop
    exact foldl_processFill_nonneg pre [] hpre
      (fun u => by rw [pdGet_nil]; exact ⟨le_refl 0, le_refl 0⟩) t
  · intro pre f post hsplit
    have hf : f ∈ fills :=
      hsplit ▸ List.mem_append_right _ (List.mem_cons_self _ _)
    obtain ⟨hy, hn0, hc⟩ := hnn f hf
    have hstep : fillsLoop (pre ++ [f]) = processFill (fillsLoop pre) f := by
      unfold fillsLoop
      rw [List.foldl_append]
      rfl
    refine ⟨?_, ?_, ?_⟩
    · intro t
      rw [hstep, pdGet_processFill]
      split_ifs with h
      · subst h
        exact ⟨fillUpdate_spent_mono _ _ hy hn0 hc, fillUpdate_made_mono _ _ hc⟩
      · exact ⟨le_refl _, le_refl _⟩
    · rw [hstep, pdGet_processFill, if_pos rfl, fillUpdate_spent]
    · rw [hstep, pdGet_processFill, if_pos rfl, fillUpdate_made]

/-- Witness for C8 at a concrete input: one yes-buy fill of count `2` at
`yes_price` `3` adds `3 * 2` to its ticker's `spent`. -/
theorem c8_fills_loop_invariant_witness :
    (pdGet (fillsLoop ([] ++ [Fill.mk ("A") 0 false Side.yes TradeType.buy 3 4 2]))
        (Fill.mk ("A") 0 false Side.yes TradeType.buy 3 4 2).ticker).spent
      = (pdGet (fillsLoop [])
            (Fill.mk ("A") 0 false Side.yes TradeType.buy 3 4 2).ticker).spent
        + (if yesBranch (Fill.mk ("A") 0 false Side.yes TradeType.buy 3 4 2)
           then (Fill.mk ("A") 0 false Side.yes TradeType.buy 3 4 2).yes_price
           else (Fill.mk ("A") 0 false Side.yes TradeType.buy 3 4 2).no_price)
          * (Fill.mk ("A") 0 false Side.yes TradeType.buy 3 4 2).count :=
  ((c8_fills_loop_invariant [Fill.mk ("A") 0 false Side.yes TradeType.buy 3 4 2]
      (by decide)).2 [] (Fill.mk ("A") 0 false Side.yes TradeType.buy 3 4 2) []
      rfl).2.1

/-- Claim C9: for a ticker with nonzero net positions whose market has
settled (result `YES` or `NO`) and whose fills are not earlier than the
start time, the settlement credit `abs(positions) * 100` is added to the
profit exactly when the result matches the direction of the net position
(`NO` with negative positions or `YES` with positive positions); on the
losing side nothing is added. -/
theorem c9_settlement_credit (env : Env) (start : Int) (t : String)
    (d : ProfitData) (m : Market) (fi : List Fill)
    (hpos : d.positions ≠ 0)
    (hm : env.getMarket t = Except.ok m)
    (hf : env.getFills t = Except.ok fi)
    (hlate : ∀ f ∈ fi, start ≤ f.created_time)
    (hsettled : m.result = MarketResult.no ∨ m.result = MarketResult.yes) :
    processTicker env start t d
      = some (d.made - d.spent
          + (if (m.result = MarketResult.no ∧ d.positions < 0)
                ∨ (m.result = MarketResult.yes ∧ 0 < d.positions)
             then |d.positions| * 100 else 0)) := by
  have hhe : headEarly start (sortFills fi) = false := by
    rw [← Bool.not_eq_true, headEarly_sortFills]
    rintro ⟨f, hfi, hlt⟩
    exact absurd hlt (not_lt.mpr (hlate f hfi))
  rw [processTicker_pos env start t d hpos, hm, hf]
  simp only [hhe, Bool.false_eq_true, if_false]
  rcases hsettled with hres | hres
  · rw [hres]
    by_cases hp : d.positions < 0
    · rw [if_pos hp, if_pos (Or.inl ⟨rfl, hp⟩)]
    · have hcond : ¬ ((MarketResult.no = MarketResult.no ∧ d.positions < 0)
          ∨ (MarketResult.no = MarketResult.yes ∧ 0 < d.positions)) := by
        rintro (⟨_, h1⟩ | ⟨h2, _⟩)
        · exact hp h1
        · exact MarketResult.noConfusion h2
      rw [if_neg hp, if_neg hcond]
      simp
  · rw [hres]
    by_cases hp : d.positions > 0
    · rw [if_pos hp, if_pos (Or.inr ⟨rfl, hp⟩)]
    · have hcond : ¬ ((MarketResult.yes = MarketResult.no ∧ d.positions < 0)
          ∨ (MarketResult.yes = MarketResult.yes ∧ 0 < d.positions)) := by
        rintro (⟨h2, _⟩ | ⟨_, h1⟩)
        · exact MarketResult.noConfusion h2
        · exact hp h1
      rw [if_neg hp, if_neg hcond]
      simp

/-- Witness for C9 at a concrete input: a short position of `2` on a
market that settled `NO` collects `200`. -/
theorem c9_settlement_credit_witness :
    processTicker
        (Env.mk (fun _ => Except.ok (Market.mk ("A") MarketResult.no))
          (fun _ => Except.ok [])) 0 ("A") (ProfitData.mk (-2) 10 3)
      = some ((ProfitData.mk (-2) 10 3).made - (ProfitData.mk (-2) 10 3).spent
          + (if ((Market.mk ("A") MarketResult.no).result = MarketResult.no
                  ∧ (ProfitData.mk (-2) 10 3).positions < 0)
                ∨ ((Market.mk ("A") MarketResult.no).result = MarketResult.yes
                  ∧ 0 < (ProfitData.mk (-2) 10 3).positions)
             then |(ProfitData.mk (-2) 10 3).positions| * 100 else 0)) :=
  c9_settlement_credit _ 0 ("A") _ _ [] (by decide) rfl rfl
    (by intro f hf; exact absurd hf (List.not_mem_nil f)) (Or.inl rfl)

/-- Claim C10: for a ticker with nonzero net positions, the loop omits
it from `final_profit` exactly when: `get_market` raises, `get_fills`
raises, some fill of the ticker precedes the start time (equivalently,
its earliest fill does), or the market result is neither `YES` nor `NO`;
in every other case the ticker receives an entry. -/
theorem c10_omission_characterization (env : Env) (start : Int) (t : String)
    (d : ProfitData) (hpos : d.positions ≠ 0) :
    processTicker env start t d = none
      ↔ env.getMarket t = Except.error ()
        ∨ env.getFills t = Except.error ()
        ∨ (∃ fi, env.getFills t = Except.ok fi
            ∧ ∃ f, f ∈ fi ∧ f.created_time < start)
        ∨ (∃ m, env.getMarket t = Except.ok m
            ∧ m.result ≠ MarketResult.no ∧ m.result ≠ MarketResult.yes) := by
  rw [processTicker_pos env start t d hpos]
  cases hm : env.getMarket t with
  | error e =>
    cases e
    exact iff_of_true rfl (Or.inl rfl)
  | ok m =>
    cases hf : env.getFills t with
    | error e =>
      cases e
      exact iff_of_true rfl (Or.inr (Or.inl rfl))
    | ok fi =>
      by_cases hhe : headEarly start (sortFills fi) = true
      · simp only [hhe, if_true]
        refine iff_of_true trivial (Or.inr (Or.inr (Or.inl ⟨fi, rfl, ?_⟩)))
        exact (headEarly_sortFills start fi).mp hhe
      · have hhe' : headEarly start (sortFills fi) = false :=
          Bool.not_eq_true _ ▸ eq_false_of_ne_true hhe
        simp only [hhe', Bool.false_eq_true, if_false]
        have hnoearly : ¬ ∃ f, f ∈ fi ∧ f.created_time < start := by
          rw [← headEarly_sortFills start fi]
          simp [hhe']
        cases hres : m.result with
        | no =>
          apply iff_of_false
          · split_ifs <;> simp
          · rintro (h1 | h2 | ⟨fi', hfi', hex⟩ | ⟨m', hm', hno, _⟩)
            · exact Except.noConfusion h1
            · exact Except.noConfusion h2
            · injection hfi' with hfieq
              subst hfieq
              exact hnoearly hex
            · injection hm' with hmeq
              subst hmeq
              exact hno hres
        | yes =>
          apply iff_of_false
          · split_ifs <;> simp
          · rintro (h1 | h2 | ⟨fi', hfi', hex⟩ | ⟨m', hm', _, hyes⟩)
            · exact Except.noConfusion h1
            · exact Except.noConfusion h2
            · injection hfi' with hfieq
              subst hfieq
              exact hnoearly hex
            · injection hm' with hmeq
              subst hmeq
              exact hyes hres
        | notDetermined =>
          refine iff_of_true rfl (Or.inr (Or.inr (Or.inr ⟨m, rfl, ?_, ?_⟩)))
          · rw [hres]
            exact fun h => MarketResult.noConfusion h
          · rw [hres]
            exact fun h => MarketResult.noConfusion h

/-- Witness for C10 at a concrete input: with both exchange calls
raising, the nonzero-position ticker is omitted. -/
theorem c10_omission_characterization_witness :
    (ProfitData.mk 1 0 0).positions ≠ 0
    ∧ (processTicker (Env.mk (fun _ => Except.error ()) (fun _ => Except.error ()))
          0 ("A") (ProfitData.mk 1 0 0) = none
        ↔ (Env.mk (fun _ => Except.error ())
              (fun _ => Except.error ())).getMarket ("A") = Except.error ()
          ∨ (Env.mk (fun _ => Except.error ())
              (fun _ => Except.error ())).getFills ("A") = Except.error ()
          ∨ (∃ fi, (Env.mk (fun _ => Except.error ())
                (fun _ => Except.error ())).getFills ("A") = Except.ok fi
              ∧ ∃ f, f ∈ fi ∧ f.created_time < 0)
          ∨ (∃ m, (Env.mk (fun _ => Except.error ())
                (fun _ => Except.error ())).getMarket ("A") = Except.ok m
              ∧ m.result ≠ MarketResult.no ∧ m.result ≠ MarketResult.yes)) :=
  ⟨by decide,
    c10_omission_characterization _ 0 ("A") _ (by decide)⟩

/-- Counterexample for claim C6: on the line `export X='a=b'` (a quoted
value containing `=`), the code keeps only the text before the second
`=` — it sets `X` to the empty string — whereas the claim's reading (the
text right of `=` with first and last characters removed) predicts
`a=b`. -/
theorem c6_env_value_counterexample :
    loadEnvVars [("export X='a=b'".toList)] ([] : EnvMap)
      = Except.ok [(("X".toList), ([] : List Char))]
    ∧ specExportValue ("export X='a=b'".toList) = "a=b".toList := by
  constructor
  · rfl
  · rfl

/-- Claim C6 (amended): for a credentials line of the form
`export NAME=VALUE` (one space; no space or `=` in `NAME`, no space in
`VALUE`), `load_env_vars_from_file` sets the environment variable
`NAME` to the text of `VALUE` up to the next `=` (to its end when
`VALUE` has no `=`) with its first and last characters removed; and a
line not starting with `export` changes no environment variable. -/
theorem loadEnvVars_cons (l : List Char) (rest : List (List Char)) (env : EnvMap) :
    loadEnvVars (l :: rest) env
      = match parseExportLine l with
        | Except.error e => Except.error e
        | Except.ok none => loadEnvVars rest env
        | Except.ok (some kv) => loadEnvVars rest (envSet env kv.1 kv.2) := rfl

theorem c6_export_line_amended (name value : List Char) (env : EnvMap)
    (hn : ∀ c ∈ name, c ≠ ' ' ∧ c ≠ '=') (hv : ∀ c ∈ value, c ≠ ' ') :
    loadEnvVars [("export ".toList ++ (name ++ '=' :: value))] env
      = Except.ok (envSet env name (dropEnds (value.takeWhile fun c => c != '=')))
    ∧ ∀ (line : List Char) (rest : List (List Char)),
        leadsWith ("export".toList) line = false →
        loadEnvVars (line :: rest) env = loadEnvVars rest env := by
  constructor
  · rw [loadEnvVars_cons, parseExportLine_wf name value hn hv]
    rfl
  · intro line rest hline
    have hpl : parseExportLine line = Except.ok none := by
      unfold parseExportLine
      rw [hline]
      simp
    rw [loadEnvVars_cons, hpl]

/-- Witness for C6 (amended) at a concrete input: the line
`export X='v'` sets `X` to `v`. -/
theorem c6_export_line_amended_witness :
    (∀ c ∈ ("X".toList), c ≠ ' ' ∧ c ≠ '=')
    ∧ (∀ c ∈ ("'v'".toList), c ≠ ' ')
    ∧ (loadEnvVars [("export ".toList ++ (("X".toList) ++ '=' :: "'v'".toList))] ([] : EnvMap)
        = Except.ok (envSet ([] : EnvMap) ("X".toList)
            (dropEnds (("'v'".toList).takeWhile fun c => c != '=')))
       ∧ ∀ (line : List Char) (rest : List (List Char)),
          leadsWith ("export".toList) line = false →
          loadEnvVars (line :: rest) ([] : EnvMap) = loadEnvVars rest ([] : EnvMap)) :=
  ⟨by decide, by decide,
    c6_export_line_amended ("X".toList) ("'v'".toList) [] (by decide) (by decide)⟩

end KalshiBot
